import Mathlib

/-!
A verification development for the nightly-runner orchestration engine
(`nightlies.py`).  The Python source is shallowly embedded: each modelled
function is translated into an executable Lean definition that mirrors the
source's control flow, and the spec's claims are settled as theorems about
those definitions.

Modelling conventions:
* Python `str` values (branch names, commit hashes, paths) are Lean
  `String`s; where character-level reasoning is needed (filename escaping)
  the model works on `List Char`, the underlying character sequence.
* Python dict-based branch metadata (`{"commit": ..., "time": ...}`) is the
  `Metadata` structure with optional fields (a missing key is `none`).
* `json.dump`/`json.load` are external library collaborators; a metadata
  file's contents are modelled by `FileContent`: a well-formed file stores
  the record, `malformed` stands for any contents `json.load` rejects with
  `JSONDecodeError`, and `absent` for a missing file.  `read_metadata` /
  `save_metadata` translate the source's existence check and exception
  handling over that abstraction.
* Timestamps (`time.time()`) are abstracted to `Nat` ticks supplied as
  inputs; no arithmetic on them is relied upon.
-/

namespace Nightlies

/-! ## Branch metadata (`Branch.read_metadata` / `Branch.save_metadata`) -/

/-- The persisted per-branch metadata record (`self.config` in `Branch`):
JSON object with optional `commit` (string) and `time` (number) keys. -/
structure Metadata where
  commit : Option String
  time : Option Nat
deriving DecidableEq, Repr

/-- The empty record `{}`, produced when no file exists or decoding fails. -/
def emptyMetadata : Metadata := ⟨none, none⟩

/-- Contents of a branch's metadata file as seen by `json.load`:
missing file, well-formed record, or malformed/truncated JSON. -/
inductive FileContent where
  | absent
  | valid (m : Metadata)
  | malformed
deriving DecidableEq, Repr

/-- `Branch.read_metadata`: `self.config = {}`; if the file exists, try to
decode it, and on `JSONDecodeError` keep `{}`. -/
def read_metadata : FileContent → Metadata
  | .absent => emptyMetadata
  | .valid m => m
  | .malformed => emptyMetadata

/-- `Branch.save_metadata`: write the record as JSON. -/
def save_metadata (m : Metadata) : FileContent := .valid m

/-! ## Branch change detection and repository planning
(`Branch.plan`, `Repository.plan`) -/

/-- A branch as the planner sees it: its name, its loaded metadata record,
the commit `git rev-parse origin/<name>` currently reports, and the badges
`Repository.assign_badges` attached. -/
structure Branch where
  name : String
  meta : Metadata
  currentCommit : String
  badges : List String
deriving DecidableEq, Repr

/-- `Branch.plan`: the branch is runnable iff
`self.config.get("commit", "") != self.current_commit`. -/
def branchPlan (b : Branch) : Bool :=
  !(b.meta.commit.getD "" == b.currentCommit)

/-- The `always` adjustment of `Repository.plan`: if the branch carries
`always` and is not yet runnable, append it. -/
def planAlways (b : Branch) (r : List Branch) : List Branch :=
  if "always" ∈ b.badges ∧ b ∉ r then r ++ [b] else r

/-- The `baseline` adjustment of `Repository.plan`: if the branch carries
`baseline` and the runnable list is non-empty, remove it (first occurrence,
no-op if absent) and prepend it. -/
def planBaseline (b : Branch) (r : List Branch) : List Branch :=
  if "baseline" ∈ b.badges ∧ r ≠ [] then b :: r.erase b else r

/-- The `never` adjustment of `Repository.plan`: if the branch carries
`never` and is runnable, remove it. -/
def planNever (b : Branch) (r : List Branch) : List Branch :=
  if "never" ∈ b.badges ∧ b ∈ r then r.erase b else r

/-- One iteration of the badge-adjustment loop in `Repository.plan`: for the
branch `b`, apply (in source order) the `always` append, the `baseline`
remove-then-prepend, and the `never` removal, to the current runnable
list. -/
def planStep (runnable : List Branch) (b : Branch) : List Branch :=
  planNever b (planBaseline b (planAlways b runnable))

/-- `Repository.plan`: with `run_all` every branch is runnable; otherwise
seed the runnable list with the change candidates (in discovery order) and
run the badge-adjustment loop over all branches in discovery order. -/
def repoPlan (runAll : Bool) (branches : List Branch) : List Branch :=
  if runAll then branches
  else branches.foldl planStep (branches.filter branchPlan)

end Nightlies

namespace Nightlies

/-! Concrete branches for the badge-precedence scenario of the spec:
`A` is the only change candidate and carries `never`; `B` is unchanged and
carries `always`; `C` is unchanged and carries `baseline`. -/

/-- Scenario branch `A`: changed, badge `never`. -/
def brA : Branch := ⟨"A", ⟨some "a-old", some 0⟩, "a-new", ["never"]⟩

/-- Scenario branch `B`: unchanged, badge `always`. -/
def brB : Branch := ⟨"B", ⟨some "b1", some 0⟩, "b1", ["always"]⟩

/-- Scenario branch `C`: unchanged, badge `baseline`. -/
def brC : Branch := ⟨"C", ⟨some "c1", some 0⟩, "c1", ["baseline"]⟩

example : repoPlan false [brA, brB, brC] = [brC, brB] := by decide
example : repoPlan false [brA, brC, brB] = [brB] := by decide
example : repoPlan false [brB, brA, brC] = [brC, brB] := by decide
example : repoPlan false [brB, brC, brA] = [brC, brB] := by decide
example : repoPlan false [brC, brA, brB] = [brC, brB] := by decide
example : repoPlan false [brC, brB, brA] = [brC, brB] := by decide

/-! Enumeration of permutations of short concrete lists, used to settle the
badge-precedence claim for every discovery ordering. -/

lemma perm_pair {α : Type} {y z b c : α} (h : ([y, z] : List α).Perm [b, c]) :
    (y = b ∧ z = c) ∨ (y = c ∧ z = b) := by
  have hy : y ∈ [b, c] := h.mem_iff.mp (List.mem_cons_self _ _)
  rcases List.mem_cons.mp hy with rfl | hy
  · have h1 := (List.perm_cons y).mp h
    have h2 := List.perm_singleton.mp h1
    exact Or.inl ⟨rfl, by injection h2⟩
  · rcases List.mem_singleton.mp hy with rfl
    have h1 : ([y, z] : List α).Perm [y, b] := h.trans (List.Perm.swap _ _ _)
    have h2 := List.perm_singleton.mp ((List.perm_cons y).mp h1)
    exact Or.inr ⟨rfl, by injection h2⟩

lemma perm_three {α : Type} {a b c : α} {l : List α} (h : l.Perm [a, b, c]) :
    l = [a, b, c] ∨ l = [a, c, b] ∨ l = [b, a, c] ∨ l = [b, c, a] ∨
      l = [c, a, b] ∨ l = [c, b, a] := by
  have h3 : l.length = 3 := by rw [h.length_eq]; rfl
  obtain ⟨x, y, z, rfl⟩ := List.length_eq_three.mp h3
  have hx : x ∈ [a, b, c] := h.mem_iff.mp (List.mem_cons_self _ _)
  rcases List.mem_cons.mp hx with rfl | hx
  · have h1 := (List.perm_cons x).mp h
    rcases perm_pair h1 with ⟨rfl, rfl⟩ | ⟨rfl, rfl⟩
    · exact Or.inl rfl
    · exact Or.inr (Or.inl rfl)
  rcases List.mem_cons.mp hx with rfl | hx
  · have hswap : ([a, x, c] : List α).Perm [x, a, c] := List.Perm.swap _ _ _
    have h1 := (List.perm_cons x).mp (h.trans hswap)
    rcases perm_pair h1 with ⟨rfl, rfl⟩ | ⟨rfl, rfl⟩
    · exact Or.inr (Or.inr (Or.inl rfl))
    · exact Or.inr (Or.inr (Or.inr (Or.inl rfl)))
  rcases List.mem_singleton.mp hx with rfl
  have hs1 : ([a, b, x] : List α).Perm [a, x, b] :=
    (List.perm_cons a).mpr (List.Perm.swap _ _ _)
  have hs2 : ([a, x, b] : List α).Perm [x, a, b] := List.Perm.swap _ _ _
  have h1 := (List.perm_cons x).mp (h.trans (hs1.trans hs2))
  rcases perm_pair h1 with ⟨rfl, rfl⟩ | ⟨rfl, rfl⟩
  · exact Or.inr (Or.inr (Or.inr (Or.inr (Or.inl rfl))))
  · exact Or.inr (Or.inr (Or.inr (Or.inr (Or.inr rfl))))

/-- C1 (as amended).  In the badge-precedence scenario (branches exactly
`A`, `B`, `C`; `A` the only change candidate with badge `never`; `B`
unchanged with badge `always`; `C` unchanged with badge `baseline`; the
repository not flagged run-all), `plan()` produces `[C, B]` for every
discovery/configuration ordering of the three branches except `[A, C, B]`:
there the `never` removal of `A` empties the runnable list before `C`'s
baseline step (which only fires on a non-empty list), and then `B` is
appended, so the produced list is `[B]`. -/
theorem claim_c1 (l : List Branch) (h : l.Perm [brA, brB, brC]) :
    repoPlan false l = if l = [brA, brC, brB] then [brB] else [brC, brB] := by
  rcases perm_three h with rfl | rfl | rfl | rfl | rfl | rfl <;> decide

/-- Witness for C1: the ordering `[B, A, C]` satisfies the permutation
hypothesis and yields `[C, B]`. -/
theorem claim_c1_witness :
    repoPlan false [brB, brA, brC] =
      if ([brB, brA, brC] : List Branch) = [brA, brC, brB] then [brB]
      else [brC, brB] :=
  claim_c1 [brB, brA, brC] (by decide)

/-- Counterexample for C1 as stated: for the discovery ordering
`[A, C, B]` the planned list is `[B]`, not `[C, B]`. -/
theorem claim_c1_cex :
    repoPlan false [brA, brC, brB] = [brB] ∧
      repoPlan false [brA, brC, brB] ≠ [brC, brB] := by decide

/-! Planner exclusion lemmas: a branch that is unchanged and carries
neither `always` nor `baseline` can never enter the runnable list. -/

lemma not_mem_planAlways {b : Branch} (x : Branch) {r : List Branch}
    (hb : b ∉ r) (hba : "always" ∉ b.badges) : b ∉ planAlways x r := by
  unfold planAlways
  split
  · rename_i hcond
    intro hm
    rcases List.mem_append.mp hm with hm | hm
    · exact hb hm
    · rcases List.mem_singleton.mp hm with rfl
      exact hba hcond.1
  · exact hb

lemma not_mem_planBaseline {b : Branch} (x : Branch) {r : List Branch}
    (hb : b ∉ r) (hbb : "baseline" ∉ b.badges) : b ∉ planBaseline x r := by
  unfold planBaseline
  split
  · rename_i hcond
    intro hm
    rcases List.mem_cons.mp hm with rfl | hm
    · exact hbb hcond.1
    · exact hb ((List.erase_sublist _ _).mem hm)
  · exact hb

lemma not_mem_planNever {b : Branch} (x : Branch) {r : List Branch}
    (hb : b ∉ r) : b ∉ planNever x r := by
  unfold planNever
  split
  · exact fun hm => hb ((List.erase_sublist _ _).mem hm)
  · exact hb

lemma not_mem_planStep {b : Branch} (x : Branch) {r : List Branch}
    (hb : b ∉ r) (hba : "always" ∉ b.badges) (hbb : "baseline" ∉ b.badges) :
    b ∉ planStep r x :=
  not_mem_planNever x (not_mem_planBaseline x (not_mem_planAlways x hb hba) hbb)

lemma not_mem_foldl_planStep {b : Branch} (bs : List Branch)
    (init : List Branch) (hb : b ∉ init) (hba : "always" ∉ b.badges)
    (hbb : "baseline" ∉ b.badges) : b ∉ bs.foldl planStep init := by
  induction bs generalizing init with
  | nil => exact hb
  | cons x xs ih => exact ih _ (not_mem_planStep x hb hba hbb)

/-! Emptiness lemmas: starting from an empty candidate list, the loop adds
nothing unless some branch carries `always`. -/

lemma planAlways_nil (x : Branch) (hx : "always" ∉ x.badges) :
    planAlways x [] = [] := by
  unfold planAlways
  rw [if_neg (fun hcond => hx hcond.1)]

lemma planBaseline_nil (x : Branch) : planBaseline x [] = [] := by
  unfold planBaseline
  rw [if_neg (fun hcond => hcond.2 rfl)]

lemma planNever_nil (x : Branch) : planNever x [] = [] := by
  unfold planNever
  rw [if_neg (fun hcond => List.not_mem_nil x hcond.2)]

lemma planStep_nil (x : Branch) (hx : "always" ∉ x.badges) :
    planStep [] x = [] := by
  unfold planStep
  rw [planAlways_nil x hx, planBaseline_nil, planNever_nil]

lemma foldl_planStep_nil (bs : List Branch)
    (h : ∀ x ∈ bs, "always" ∉ x.badges) : bs.foldl planStep [] = [] := by
  induction bs with
  | nil => rfl
  | cons x xs ih =>
    rw [List.foldl_cons, planStep_nil x (h x (List.mem_cons_self _ _))]
    exact ih fun y hy => h y (List.mem_cons_of_mem _ hy)

lemma repoPlan_eq_nil (bs : List Branch)
    (h : ∀ b ∈ bs, b.meta.commit.getD "" = b.currentCommit ∧
      "always" ∉ b.badges) : repoPlan false bs = [] := by
  unfold repoPlan
  rw [if_neg (by simp)]
  have hfilter : bs.filter branchPlan = [] := by
    rw [List.filter_eq_nil_iff]
    intro b hb
    have := (h b hb).1
    simp [branchPlan, this]
  rw [hfilter]
  exact foldl_planStep_nil bs fun x hx => (h x hx).2

/-- C5.  An unchanged branch (stored metadata commit equal to the current
remote commit) carrying neither `always` nor `baseline` is excluded from
the planned runnable list of a repository that is not flagged run-all; in
particular a repository whose branches are all unchanged with no
`always`/`baseline` badges plans an empty runnable list. -/
theorem claim_c5 :
    (∀ (branches : List Branch) (b : Branch),
      b.meta.commit.getD "" = b.currentCommit →
      "always" ∉ b.badges → "baseline" ∉ b.badges →
      b ∉ repoPlan false branches) ∧
    (∀ branches : List Branch,
      (∀ b ∈ branches, b.meta.commit.getD "" = b.currentCommit ∧
        "always" ∉ b.badges ∧ "baseline" ∉ b.badges) →
      repoPlan false branches = []) := by
  constructor
  · intro branches b hunch hba hbb
    unfold repoPlan
    rw [if_neg (by simp)]
    refine not_mem_foldl_planStep branches _ ?_ hba hbb
    intro hm
    have := (List.mem_filter.mp hm).2
    simp [branchPlan, hunch] at this
  · intro branches h
    exact repoPlan_eq_nil branches fun b hb => ⟨(h b hb).1, (h b hb).2.1⟩

/-- Scenario branch for C6: carries `baseline` and is itself a change
candidate (stored commit differs from the current remote commit). -/
def brBase : Branch := ⟨"main", ⟨some "m-old", some 0⟩, "m-new", ["baseline"]⟩

/-- Scenario branch for C6: carries `baseline` and is unchanged. -/
def brBaseU : Branch := ⟨"main", ⟨some "m1", some 0⟩, "m1", ["baseline"]⟩

/-- Scenario branch: unchanged, no badges. -/
def brDev : Branch := ⟨"dev", ⟨some "d1", some 0⟩, "d1", []⟩

/-- C6 (as amended).  The `baseline` badge never adds its branch to an
otherwise empty runnable list: if no branch of the repository is a change
candidate and none carries `always`, `plan()` yields a runnable list that
does not contain the baseline branch (the list is empty).  A baseline
branch that is itself the repository's only change candidate, however,
does appear in the planned list: it is its own change candidate, so the
non-emptiness guard of the baseline step passes. -/
theorem claim_c6 (branches : List Branch) (c : Branch)
    (_hc : "baseline" ∈ c.badges)
    (hall : ∀ b ∈ branches, b.meta.commit.getD "" = b.currentCommit ∧
      "always" ∉ b.badges) :
    c ∉ repoPlan false branches := by
  rw [repoPlan_eq_nil branches hall]
  exact List.not_mem_nil c

/-- Witness for C6: with an unchanged baseline branch and an unchanged
plain branch, the baseline branch is not planned. -/
theorem claim_c6_witness : brBaseU ∉ repoPlan false [brBaseU, brDev] :=
  claim_c6 [brBaseU, brDev] brBaseU (by decide) (by decide)

/-- Counterexample for C6 as stated: a baseline branch that is the
repository's only change candidate (and no branch carries `always`) does
appear in the planned runnable list — it runs even though no other branch
would run. -/
theorem claim_c6_cex :
    brBase ∈ repoPlan false [brBase, brDev] ∧
      repoPlan false [brBase, brDev] = [brBase] := by decide

/-- Witness for C5: the unchanged, badge-free branch `brDev` is not
planned; a repository whose branches are all unchanged and free of
`always`/`baseline` badges plans nothing. -/
theorem claim_c5_witness :
    brDev ∉ repoPlan false [brBase, brDev] ∧
      repoPlan false [brDev] = [] :=
  ⟨claim_c5.1 [brBase, brDev] brDev (by decide) (by decide) (by decide),
    claim_c5.2 [brDev] (by decide)⟩

/-- C7.  Saving a branch metadata record and reading it back yields the
identical record (commit string and timestamp); reading an absent file or
one whose contents `json.load` rejects yields the empty record, the same
as no prior record, rather than raising; and a branch whose metadata is
the empty record is treated as changed by `Branch.plan` (its current
remote commit being a non-empty hash). -/
theorem claim_c7 :
    (∀ m : Metadata, read_metadata (save_metadata m) = m) ∧
    read_metadata .absent = emptyMetadata ∧
    read_metadata .malformed = emptyMetadata ∧
    (∀ b : Branch, b.meta = emptyMetadata → b.currentCommit ≠ "" →
      branchPlan b = true) := by
  refine ⟨fun m => rfl, rfl, rfl, fun b hm hc => ?_⟩
  simp only [branchPlan, hm, emptyMetadata, Option.getD_none, Bool.not_eq_true',
    beq_eq_false_iff_ne, ne_eq]
  exact fun h => hc h.symm

/-- Witness for C7: a concrete record round-trips, and a branch with the
empty record and commit `deadbeef` is treated as changed. -/
theorem claim_c7_witness :
    read_metadata (save_metadata ⟨some "deadbeef", some 17⟩) =
      ⟨some "deadbeef", some 17⟩ ∧
    branchPlan ⟨"main", emptyMetadata, "deadbeef", []⟩ = true :=
  ⟨claim_c7.1 ⟨some "deadbeef", some 17⟩,
    claim_c7.2.2.2 ⟨"main", emptyMetadata, "deadbeef", []⟩ rfl (by decide)⟩

/-! ## Job execution (`Branch.run`) -/

/-- Outcome of `process.wait(timeout=to)` on the spawned job: either the
wait timed out (`subprocess.TimeoutExpired`) or the process exited with the
given code. -/
inductive WaitResult where
  | timedOut
  | exited (code : Nat)
deriving DecidableEq, Repr

/-- Result kind recorded for a job, as reported in `info["result"]`. -/
inductive ResultKind where
  | success
  | failure
  | timeout
deriving DecidableEq, Repr

/-- Inputs determining one execution of `Branch.run`: the dry-run flag, the
outcome of the subprocess wait, whether the `finally` block's
`sudo systemctl stop nightlies.slice` command succeeds (if it exits
non-zero, the `CalledProcessError` it raises replaces any pending
`TimeoutExpired`), the output of the final `git rev-parse origin/<branch>`
(assumed to succeed), the current clock reading for `time.time()`, and the
branch's metadata record loaded earlier (`self.config`). -/
structure BranchRunInput where
  dryrun : Bool
  waitResult : WaitResult
  cleanupOk : Bool
  revParse : String
  now : Nat
  prior : Metadata
deriving DecidableEq, Repr

/-- `Branch.run`, reduced to the result classification and the metadata
write.  In dry-run mode the subprocess block is skipped entirely (no
exception, result `success`) and the metadata block is skipped (`none`).
Otherwise the `try`/`except` ladder yields `timeout` for
`subprocess.TimeoutExpired`, `failure` for `CalledProcessError` (non-zero
exit, or a failing cleanup command in the `finally` block — the latter
replaces a pending timeout), else `success`; afterwards the branch's
record gets `commit` set to the freshly resolved remote commit and `time`
to the current clock, and is saved. -/
def branchRun (inp : BranchRunInput) : ResultKind × Option Metadata :=
  let kind : ResultKind :=
    if inp.dryrun then .success
    else if !inp.cleanupOk then .failure
    else
      match inp.waitResult with
      | .timedOut => .timeout
      | .exited code => if code ≠ 0 then .failure else .success
  let saved : Option Metadata :=
    if inp.dryrun then none
    else some { inp.prior with commit := some inp.revParse, time := some inp.now }
  (kind, saved)

/-- C4.  When the subprocess wait exceeds the configured timeout outside
dry-run mode (and the slice-cleanup command in the `finally` block does not
itself fail), the recorded result kind is `timeout` — never `success` and
never `failure` — and the branch metadata record is still rewritten with
the current remote commit hash and the current timestamp. -/
theorem claim_c4 (inp : BranchRunInput) (hd : inp.dryrun = false)
    (hw : inp.waitResult = .timedOut) (hc : inp.cleanupOk = true) :
    (branchRun inp).1 = .timeout ∧
    (branchRun inp).1 ≠ .success ∧
    (branchRun inp).1 ≠ .failure ∧
    ∃ m, (branchRun inp).2 = some m ∧
      m.commit = some inp.revParse ∧ m.time = some inp.now := by
  refine ⟨?_, ?_, ?_, ⟨⟨some inp.revParse, some inp.now⟩, ?_, rfl, rfl⟩⟩ <;>
    simp [branchRun, hd, hw, hc]

/-- Witness for C4: a concrete timed-out run. -/
theorem claim_c4_witness :
    (branchRun ⟨false, .timedOut, true, "abc123", 42, ⟨some "old", some 7⟩⟩).1
        = .timeout ∧
    (branchRun ⟨false, .timedOut, true, "abc123", 42, ⟨some "old", some 7⟩⟩).1
        ≠ .success ∧
    (branchRun ⟨false, .timedOut, true, "abc123", 42, ⟨some "old", some 7⟩⟩).1
        ≠ .failure ∧
    ∃ m,
      (branchRun ⟨false, .timedOut, true, "abc123", 42, ⟨some "old", some 7⟩⟩).2
          = some m ∧
      m.commit = some "abc123" ∧ m.time = some 42 :=
  claim_c4 ⟨false, .timedOut, true, "abc123", 42, ⟨some "old", some 7⟩⟩
    rfl rfl rfl

/-! ## Repository cleanup (`Repository.clean`) -/

/-- Inputs to `Repository.clean`: the runner's dry-run flag, the
repository's ignore set (`self.ignored_files`, which includes the
`.checkout` and `.status` paths), the known branches' worktree directory
and metadata file paths (`b.dir`, `b.lastcommit`), and the entries
of the repository root directory (`self.dir.iterdir()`), each tagged with
whether it is a directory. -/
structure CleanConfig where
  dryrun : Bool
  ignored : List String
  branches : List (String × String)
  entries : List (String × Bool)
deriving DecidableEq, Repr

/-- The `expected_files` set of `Repository.clean`: the ignore set together
with every known branch's worktree directory and metadata file. -/
def expectedFiles (cfg : CleanConfig) : List String :=
  cfg.ignored ++ cfg.branches.foldr (fun b acc => b.1 :: b.2 :: acc) []

/-- The paths `Repository.clean` deletes: every directory entry not in
`expected_files`, except that in dry-run mode the deletion (of directories
via `shutil.rmtree` and of plain files via `unlink` alike) is skipped. -/
def cleanDeleted (cfg : CleanConfig) : List String :=
  cfg.entries.filterMap fun e =>
    if e.1 ∈ expectedFiles cfg then none
    else if cfg.dryrun then none
    else some e.1

/-- C9 (as amended).  In dry-run mode `Repository.clean` deletes nothing at
all — stale worktree directories included, since the dry-run guard covers
the directory branch (`shutil.rmtree`) and the file branch (`unlink`)
alike.  In non-dry-run mode every entry outside the expected set — stale
worktree directory or stray file — is deleted, and paths in the ignore set
or belonging to a known branch's worktree or metadata file are never
deleted in either mode. -/
lemma mem_cleanDeleted {cfg : CleanConfig} {p : String} :
    p ∈ cleanDeleted cfg ↔
      (∃ e ∈ cfg.entries, e.1 = p) ∧ p ∉ expectedFiles cfg ∧
        cfg.dryrun = false := by
  unfold cleanDeleted
  rw [List.mem_filterMap]
  constructor
  · rintro ⟨e, he, hsome⟩
    by_cases hexp : e.1 ∈ expectedFiles cfg
    · rw [if_pos hexp] at hsome
      cases hsome
    · rw [if_neg hexp] at hsome
      by_cases hdry : cfg.dryrun = true
      · rw [if_pos hdry] at hsome
        cases hsome
      · rw [if_neg hdry] at hsome
        injection hsome with hp
        subst hp
        have hfalse : cfg.dryrun = false := by
          revert hdry
          cases cfg.dryrun <;> simp
        exact ⟨⟨e, he, rfl⟩, hexp, hfalse⟩
  · rintro ⟨⟨e, he, rfl⟩, hexp, hdry⟩
    refine ⟨e, he, ?_⟩
    rw [if_neg hexp, hdry]
    rfl

theorem claim_c9 (cfg : CleanConfig) :
    (cfg.dryrun = true → cleanDeleted cfg = []) ∧
    (cfg.dryrun = false →
      ∀ e ∈ cfg.entries, (e.1 ∈ cleanDeleted cfg ↔ e.1 ∉ expectedFiles cfg)) ∧
    (∀ p ∈ expectedFiles cfg, p ∉ cleanDeleted cfg) := by
  refine ⟨fun hd => ?_, fun hd e he => ?_, fun p hp hmem => ?_⟩
  · rw [List.eq_nil_iff_forall_not_mem]
    intro p hp
    have := (mem_cleanDeleted.mp hp).2.2
    rw [hd] at this
    cases this
  · constructor
    · exact fun hmem => (mem_cleanDeleted.mp hmem).2.1
    · exact fun hexp => mem_cleanDeleted.mpr ⟨⟨e, he, rfl⟩, hexp, hd⟩
  · exact (mem_cleanDeleted.mp hmem).2.1 hp

/-- Concrete cleanup scenario: dry-run, one stale worktree directory, one
known branch. -/
def cleanCfgDry : CleanConfig :=
  ⟨true, [".checkout", ".status"], [("b1", "b1.json")],
    [("stale-branch", true), ("b1", true), ("b1.json", false)]⟩

/-- Counterexample for C9 as stated: in dry-run mode the stale worktree
directory `stale-branch` (a directory entry belonging to no known branch
and not ignored) is not deleted — nothing is. -/
theorem claim_c9_cex :
    ("stale-branch", true) ∈ cleanCfgDry.entries ∧
    "stale-branch" ∉ expectedFiles cleanCfgDry ∧
    cleanCfgDry.dryrun = true ∧
    "stale-branch" ∉ cleanDeleted cleanCfgDry ∧
    cleanDeleted cleanCfgDry = [] := by decide

/-- Concrete cleanup scenario: same repository state, dry-run off. -/
def cleanCfgWet : CleanConfig :=
  ⟨false, [".checkout", ".status"], [("b1", "b1.json")],
    [("stale-branch", true), ("b1", true), ("b1.json", false)]⟩

/-- Witness for C9 (amended): with dry-run off the stale directory is
deleted exactly because it is unexpected. -/
theorem claim_c9_witness :
    "stale-branch" ∈ cleanDeleted cleanCfgWet ↔
      "stale-branch" ∉ expectedFiles cleanCfgWet :=
  (claim_c9 cleanCfgWet).2.1 rfl ("stale-branch", true) (by decide)

/-! ## The run coordinator (`NightlyRunner.run`)

The cycle is modelled as two phases over abstract repository and job
specifications.  Each repository's `load()`/`plan()` call either succeeds
with its runnable branch list or raises; each planned job's
`branch.run()` call either succeeds or raises.  The model records the
observable effects in order — fatal-message assignments, `post()`
notifications, sync/plan completions, and job executions — together with
whether the cycle escaped with an uncaught exception and whether the lock
(pid) file was unlinked. -/

/-- Observable outcome of one job's `branch.run()` call: normal return,
`subprocess.CalledProcessError` (caught by the per-job loop), or any other
exception — e.g. an `OSError` from the log file or metadata write — which
the per-job loop does not catch. -/
inductive JobOutcome where
  | ok
  | raiseCPE
  | raiseOther
deriving DecidableEq, Repr

/-- A planned job: which repository it belongs to, an identifier for the
branch, and the outcome its execution would have. -/
structure JobSpec where
  repoId : Nat
  jobId : Nat
  outcome : JobOutcome
deriving DecidableEq, Repr

/-- Observable outcome of one repository's `load()`+`plan()` calls: success
with the repository's runnable jobs, `CalledProcessError`, `OSError` (both
caught by the per-repository loop), or any other exception (uncaught). -/
inductive LoadResult where
  | ok (jobs : List JobSpec)
  | raiseCPE
  | raiseOS
  | raiseOther
deriving DecidableEq, Repr

/-- A configured repository: its identity and what its sync/plan phase
would do. -/
structure RepoSpec where
  id : Nat
  loadPlan : LoadResult
deriving DecidableEq, Repr

/-- Events recorded by the coordinator, in order:
`load r` — repository `r`'s sync and plan completed and its runnable list
was appended to the combined plan; `fatal r` — a fatal message was stored
on repository `r`; `post r` — repository `r`'s notification `post()` was
invoked; `run r j` — job `j` of repository `r` was executed. -/
inductive Event where
  | load (repoId : Nat)
  | fatal (repoId : Nat)
  | post (repoId : Nat)
  | run (repoId : Nat) (jobId : Nat)
deriving DecidableEq, Repr

/-- The per-repository phase of `run()`: sync and plan each repository in
configuration order, accumulating runnable branches into one combined
plan; `CalledProcessError` and `OSError` are caught and converted to a
fatal message plus an immediate `post()` for that repository only; any
other exception propagates (third component `true`), abandoning the rest
of the loop. -/
def repoPhase : List RepoSpec → List Event × List JobSpec × Bool
  | [] => ([], [], false)
  | r :: rest =>
    match r.loadPlan with
    | .ok jobs =>
      let out := repoPhase rest
      (.load r.id :: out.1, jobs ++ out.2.1, out.2.2)
    | .raiseCPE =>
      let out := repoPhase rest
      (.fatal r.id :: .post r.id :: out.1, out.2.1, out.2.2)
    | .raiseOS =>
      let out := repoPhase rest
      (.fatal r.id :: .post r.id :: out.1, out.2.1, out.2.2)
    | .raiseOther => ([], [], true)

/-- The guard of the `finally` block of the per-job loop:
`all([idx <= i for idx, b in enumerate(plan) if branch.repo == b.repo])`,
i.e. every job of the same repository sits at index at most `i`. -/
def lastFor (plan : List JobSpec) (i : Nat) (b : JobSpec) : Bool :=
  plan.enum.all fun p => !(p.2.repoId == b.repoId) || decide (p.1 ≤ i)

/-- Events of iteration `i` of the per-job loop, executing job `b`:
the job runs; a `CalledProcessError` is caught and stored as the
repository's fatal message; the `finally` block posts the repository's
notification when `b` is its last planned job — also when an uncaught
exception is propagating. -/
def stepEv (plan : List JobSpec) (i : Nat) (b : JobSpec) : List Event :=
  .run b.repoId b.jobId ::
    ((if b.outcome == .raiseCPE then [.fatal b.repoId] else []) ++
      (if lastFor plan i b then [.post b.repoId] else []))

/-- The per-job loop from index `i` on, with `rem` the remaining jobs
(`rem = plan.drop i`): each iteration emits its events; an uncaught
exception (outcome `raiseOther`) still runs that iteration's `finally`
block but abandons the remaining jobs (second component `true`). -/
def jobPhase (plan : List JobSpec) : Nat → List JobSpec → List Event × Bool
  | _, [] => ([], false)
  | i, b :: rest =>
    if b.outcome == .raiseOther then (stepEv plan i b, true)
    else
      let out := jobPhase plan (i + 1) rest
      (stepEv plan i b ++ out.1, out.2)

/-- Configuration of one `run()` invocation: whether `lock()` returned
`True` (locking itself — creation, contention, waiting — is §4.1's
concern, not these claims'), and the configured repositories in order. -/
structure RunConfig where
  lockAcquired : Bool
  repos : List RepoSpec
deriving DecidableEq, Repr

/-- Result of one `run()` invocation: the recorded events, whether the
lock was acquired, whether the pid file was unlinked before returning, and
whether `run()` ended by propagating an uncaught exception rather than
returning normally. -/
structure RunOut where
  events : List Event
  acquired : Bool
  unlinked : Bool
  escaped : Bool
deriving DecidableEq, Repr

/-- `NightlyRunner.run` after the lock step: if the lock was not acquired,
return at once (the early `return`); otherwise run the per-repository
phase, then the per-job loop over the combined plan, and finally
`self.pid_file.unlink()` — which is reached only when neither phase
propagated an exception, since no `try`/`finally` protects it. -/
def runModel (cfg : RunConfig) : RunOut :=
  if cfg.lockAcquired then
    let rp := repoPhase cfg.repos
    if rp.2.2 then ⟨rp.1, true, false, true⟩
    else
      let jp := jobPhase rp.2.1 0 rp.2.1
      if jp.2 then ⟨rp.1 ++ jp.1, true, false, true⟩
      else ⟨rp.1 ++ jp.1, true, true, false⟩
  else ⟨[], false, false, false⟩

example :
    runModel ⟨true, [⟨0, .raiseCPE⟩, ⟨1, .ok [⟨1, 7, .ok⟩]⟩]⟩ =
      ⟨[.fatal 0, .post 0, .load 1, .run 1 7, .post 1], true, true, false⟩ := by
  decide

example :
    runModel ⟨true, [⟨0, .ok [⟨0, 1, .ok⟩, ⟨0, 2, .raiseOther⟩]⟩]⟩ =
      ⟨[.load 0, .run 0 1, .run 0 2, .post 0], true, false, true⟩ := by
  decide

example :
    runModel ⟨true, [⟨0, .ok [⟨0, 1, .raiseCPE⟩, ⟨0, 2, .ok⟩]⟩]⟩ =
      ⟨[.load 0, .run 0 1, .fatal 0, .run 0 2, .post 0], true, true, false⟩ := by
  decide

/-- C3 (as amended).  The lock (pid) file is deleted exactly on the
normal-completion path: when the lock was acquired and neither phase
propagated an uncaught exception.  It stays in place when the lock was
never acquired, and also when an exception the phase does not catch
(anything but `CalledProcessError`/`OSError` in the per-repository phase,
anything but `CalledProcessError` in the per-job phase) propagates out of
`run()` — no `try`/`finally` protects the final `unlink`. -/
theorem claim_c3 (cfg : RunConfig) :
    (runModel cfg).unlinked = true ↔
      cfg.lockAcquired = true ∧ (runModel cfg).escaped = false := by
  unfold runModel
  cases hl : cfg.lockAcquired
  · simp
  · simp only [if_true]
    split
    · simp
    · split <;> simp

/-- Concrete configuration for the C3 counterexample: the lock is
acquired, one repository loads fine, and its single job's `branch.run()`
raises an exception the per-job loop does not catch (for instance an
`OSError` while writing the metadata file). -/
def cfgC3 : RunConfig := ⟨true, [⟨0, .ok [⟨0, 1, .raiseOther⟩]⟩]⟩

/-- Counterexample for C3 as stated: a return path on which the lock was
acquired and an exception was raised during the per-job execution phase,
yet the lock file is not deleted. -/
theorem claim_c3_cex :
    (runModel cfgC3).acquired = true ∧ (runModel cfgC3).escaped = true ∧
      (runModel cfgC3).unlinked = false := by decide

/-! Support lemmas for the two phases. -/

/-- Predicate: the repository's sync/plan phase succeeds. -/
def isOk : LoadResult → Bool
  | .ok _ => true
  | _ => false

/-- The runnable jobs a repository contributes to the combined plan
(empty when its sync/plan raises). -/
def jobsOf (r : RepoSpec) : List JobSpec :=
  match r.loadPlan with
  | .ok js => js
  | _ => []

lemma repoPhase_ok (l : List RepoSpec) (h : ∀ r ∈ l, isOk r.loadPlan = true) :
    repoPhase l = (l.map fun r => Event.load r.id, l.flatMap jobsOf, false) := by
  induction l with
  | nil => rfl
  | cons r rest ih =>
    have hr := h r (List.mem_cons_self _ _)
    have hrest := ih fun x hx => h x (List.mem_cons_of_mem _ hx)
    cases hld : r.loadPlan with
    | ok js => simp [repoPhase, hld, hrest, jobsOf]
    | raiseCPE => rw [hld] at hr; cases hr
    | raiseOS => rw [hld] at hr; cases hr
    | raiseOther => rw [hld] at hr; cases hr

lemma repoPhase_append (l1 l2 : List RepoSpec)
    (h : (repoPhase l1).2.2 = false) :
    repoPhase (l1 ++ l2) =
      ((repoPhase l1).1 ++ (repoPhase l2).1,
        (repoPhase l1).2.1 ++ (repoPhase l2).2.1,
        (repoPhase l2).2.2) := by
  induction l1 with
  | nil => simp [repoPhase]
  | cons r rest ih =>
    cases hld : r.loadPlan with
    | ok js =>
      rw [repoPhase] at h ⊢
      simp only [hld] at h ⊢
      rw [List.cons_append, repoPhase]
      simp only [hld, ih h, List.cons_append, List.append_assoc]
    | raiseCPE =>
      rw [repoPhase] at h ⊢
      simp only [hld] at h ⊢
      rw [List.cons_append, repoPhase]
      simp only [hld, ih h, List.cons_append, List.append_assoc]
    | raiseOS =>
      rw [repoPhase] at h ⊢
      simp only [hld] at h ⊢
      rw [List.cons_append, repoPhase]
      simp only [hld, ih h, List.cons_append, List.append_assoc]
    | raiseOther =>
      rw [repoPhase] at h
      simp only [hld] at h
      cases h

lemma jobPhase_not_escaped (plan : List JobSpec) (i : Nat)
    (rem : List JobSpec) (h : ∀ j ∈ rem, j.outcome ≠ .raiseOther) :
    (jobPhase plan i rem).2 = false := by
  induction rem generalizing i with
  | nil => rfl
  | cons b rest ih =>
    have hb : (b.outcome == JobOutcome.raiseOther) = false := by
      simpa using h b (List.mem_cons_self _ _)
    rw [jobPhase]
    simp only [hb, Bool.false_eq_true, if_false]
    exact ih (i + 1) (fun j hj => h j (List.mem_cons_of_mem _ hj))

lemma jobPhase_run_mem (plan : List JobSpec) (i : Nat)
    (rem : List JobSpec) (h : ∀ j ∈ rem, j.outcome ≠ .raiseOther) :
    ∀ j ∈ rem, Event.run j.repoId j.jobId ∈ (jobPhase plan i rem).1 := by
  induction rem generalizing i with
  | nil => intro j hj; cases hj
  | cons b rest ih =>
    intro j hj
    have hb : (b.outcome == JobOutcome.raiseOther) = false := by
      simpa using h b (List.mem_cons_self _ _)
    rw [jobPhase]
    simp only [hb, Bool.false_eq_true, if_false]
    rcases List.mem_cons.mp hj with rfl | hj
    · exact List.mem_append_left _ (List.mem_cons_self _ _)
    · exact List.mem_append_right _
        (ih (i + 1) (fun x hx => h x (List.mem_cons_of_mem _ hx)) j hj)

lemma fatal_not_mem_stepEv (plan : List JobSpec) (i : Nat) (b : JobSpec)
    (x : Nat) (h : b.outcome ≠ .raiseCPE) :
    Event.fatal x ∉ stepEv plan i b := by
  have hb : (b.outcome == JobOutcome.raiseCPE) = false := by simpa using h
  unfold stepEv
  rw [hb]
  simp only [Bool.false_eq_true, if_false, List.nil_append]
  intro hm
  rcases List.mem_cons.mp hm with hm | hm
  · cases hm
  · split at hm
    · rcases List.mem_singleton.mp hm with hm
      cases hm
    · cases hm

lemma jobPhase_no_fatal (plan : List JobSpec) (i : Nat)
    (rem : List JobSpec) (h : ∀ j ∈ rem, j.outcome = .ok) (x : Nat) :
    Event.fatal x ∉ (jobPhase plan i rem).1 := by
  induction rem generalizing i with
  | nil => intro hm; cases hm
  | cons b rest ih =>
    have hb : (b.outcome == JobOutcome.raiseOther) = false := by
      rw [h b (List.mem_cons_self _ _)]; rfl
    rw [jobPhase]
    simp only [hb, Bool.false_eq_true, if_false]
    intro hm
    rcases List.mem_append.mp hm with hm | hm
    · exact fatal_not_mem_stepEv plan i b x
        (by rw [h b (List.mem_cons_self _ _)]; intro hc; cases hc) hm
    · exact ih (i + 1) (fun j hj => h j (List.mem_cons_of_mem _ hj)) hm

/-- C2.  If one repository's sync/plan raises a `CalledProcessError` or an
`OSError` while every other repository loads cleanly (with jobs that all
succeed), then `run()` records a fatal message for that repository and
invokes its notification `post`, still syncs and plans every subsequent
repository and executes every one of their planned jobs, records no fatal
message for any other repository, and completes the cycle (the lock file
is unlinked). -/
theorem claim_c2 (pre post_ : List RepoSpec) (X : RepoSpec)
    (hX : X.loadPlan = .raiseCPE ∨ X.loadPlan = .raiseOS)
    (hok : ∀ r ∈ pre ++ post_, isOk r.loadPlan = true ∧
      ∀ j ∈ jobsOf r, j.outcome = .ok)
    (hid : ∀ r ∈ pre ++ post_, r.id ≠ X.id) :
    Event.fatal X.id ∈ (runModel ⟨true, pre ++ X :: post_⟩).events ∧
    Event.post X.id ∈ (runModel ⟨true, pre ++ X :: post_⟩).events ∧
    (∀ r ∈ post_, Event.load r.id ∈ (runModel ⟨true, pre ++ X :: post_⟩).events) ∧
    (∀ r ∈ post_, ∀ j ∈ jobsOf r,
      Event.run j.repoId j.jobId ∈ (runModel ⟨true, pre ++ X :: post_⟩).events) ∧
    (∀ r ∈ pre ++ post_,
      Event.fatal r.id ∉ (runModel ⟨true, pre ++ X :: post_⟩).events) ∧
    (runModel ⟨true, pre ++ X :: post_⟩).unlinked = true := by
  have hpre : ∀ r ∈ pre, isOk r.loadPlan = true :=
    fun r hr => (hok r (List.mem_append_left _ hr)).1
  have hpost : ∀ r ∈ post_, isOk r.loadPlan = true :=
    fun r hr => (hok r (List.mem_append_right _ hr)).1
  have h1 := repoPhase_ok pre hpre
  have h2 := repoPhase_ok post_ hpost
  have hXtail : repoPhase (X :: post_) =
      (Event.fatal X.id :: Event.post X.id :: post_.map fun r => Event.load r.id,
        post_.flatMap jobsOf, false) := by
    rcases hX with hX | hX <;> rw [repoPhase] <;> simp only [hX, h2]
  have hrepo : repoPhase (pre ++ X :: post_) =
      ((pre.map fun r => Event.load r.id) ++
          (Event.fatal X.id :: Event.post X.id ::
            post_.map fun r => Event.load r.id),
        pre.flatMap jobsOf ++ post_.flatMap jobsOf, false) := by
    rw [repoPhase_append pre (X :: post_) (by rw [h1]), h1, hXtail]
  have hplanOk : ∀ j ∈ pre.flatMap jobsOf ++ post_.flatMap jobsOf,
      j.outcome = .ok := by
    intro j hj
    rcases List.mem_append.mp hj with hj | hj <;>
      obtain ⟨a, ha, hja⟩ := List.mem_flatMap.mp hj
    · exact (hok a (List.mem_append_left _ ha)).2 j hja
    · exact (hok a (List.mem_append_right _ ha)).2 j hja
  have hplanNoOther : ∀ j ∈ pre.flatMap jobsOf ++ post_.flatMap jobsOf,
      j.outcome ≠ .raiseOther := by
    intro j hj hc
    rw [hplanOk j hj] at hc
    cases hc
  have hnoesc := jobPhase_not_escaped
    (pre.flatMap jobsOf ++ post_.flatMap jobsOf) 0
    (pre.flatMap jobsOf ++ post_.flatMap jobsOf) hplanNoOther
  have hmodel : runModel ⟨true, pre ++ X :: post_⟩ =
      ⟨((pre.map fun r => Event.load r.id) ++
          (Event.fatal X.id :: Event.post X.id ::
            post_.map fun r => Event.load r.id)) ++
        (jobPhase (pre.flatMap jobsOf ++ post_.flatMap jobsOf) 0
          (pre.flatMap jobsOf ++ post_.flatMap jobsOf)).1,
        true, true, false⟩ := by
    unfold runModel
    rw [if_pos rfl]
    simp only [hrepo, hnoesc, Bool.false_eq_true, if_false]
  rw [hmodel]
  refine ⟨?_, ?_, ?_, ?_, ?_, rfl⟩
  · exact List.mem_append_left _
      (List.mem_append_right _ (List.mem_cons_self _ _))
  · exact List.mem_append_left _
      (List.mem_append_right _
        (List.mem_cons_of_mem _ (List.mem_cons_self _ _)))
  · intro r hr
    exact List.mem_append_left _
      (List.mem_append_right _
        (List.mem_cons_of_mem _
          (List.mem_cons_of_mem _ (List.mem_map_of_mem _ hr))))
  · intro r hr j hj
    refine List.mem_append_right _ (jobPhase_run_mem _ 0 _ hplanNoOther j ?_)
    exact List.mem_append_right _ (List.mem_flatMap.mpr ⟨r, hr, hj⟩)
  · intro r hr hm
    rcases List.mem_append.mp hm with hm | hm
    · rcases List.mem_append.mp hm with hm | hm
      · obtain ⟨a, _, ha⟩ := List.mem_map.mp hm
        cases ha
      · rcases List.mem_cons.mp hm with hm | hm
        · injection hm with hm
          exact hid r hr hm
        rcases List.mem_cons.mp hm with hm | hm
        · cases hm
        · obtain ⟨a, _, ha⟩ := List.mem_map.mp hm
          cases ha
    · exact jobPhase_no_fatal _ 0 _ hplanOk r.id hm

/-- Concrete repositories for the C2 witness: `X` fails to sync with a
`CalledProcessError`; `Y` follows it in configuration order. -/
def repoX : RepoSpec := ⟨0, .raiseCPE⟩

/-- Concrete healthy repository `Y` with one successful job. -/
def repoY : RepoSpec := ⟨1, .ok [⟨1, 7, .ok⟩]⟩

/-- Witness for C2: with `[X, Y]` and `X` raising during sync, `Y` is
still loaded and its job executed, the fatal message and post land on `X`
only, and the cycle completes. -/
theorem claim_c2_witness :
    Event.fatal repoX.id ∈ (runModel ⟨true, [] ++ repoX :: [repoY]⟩).events ∧
    Event.post repoX.id ∈ (runModel ⟨true, [] ++ repoX :: [repoY]⟩).events ∧
    (∀ r ∈ [repoY],
      Event.load r.id ∈ (runModel ⟨true, [] ++ repoX :: [repoY]⟩).events) ∧
    (∀ r ∈ [repoY], ∀ j ∈ jobsOf r,
      Event.run j.repoId j.jobId ∈
        (runModel ⟨true, [] ++ repoX :: [repoY]⟩).events) ∧
    (∀ r ∈ [] ++ [repoY],
      Event.fatal r.id ∉ (runModel ⟨true, [] ++ repoX :: [repoY]⟩).events) ∧
    (runModel ⟨true, [] ++ repoX :: [repoY]⟩).unlinked = true :=
  claim_c2 [] [repoY] repoX (Or.inl rfl) (by decide) (by decide)

/-! Characterisations of the last-job-of-repository guard. -/

lemma lastFor_eq_true_iff (plan : List JobSpec) (i : Nat) (b : JobSpec) :
    lastFor plan i b = true ↔
      ∀ k, (hk : k < plan.length) →
        (plan.get ⟨k, hk⟩).repoId = b.repoId → k ≤ i := by
  unfold lastFor
  rw [List.all_eq_true]
  constructor
  · intro h k hk hrep
    have hmem : (k, plan.get ⟨k, hk⟩) ∈ plan.enum := by
      rw [List.mem_enum_iff_getElem?]
      rw [List.get_eq_getElem]
      exact List.getElem?_eq_getElem hk
    have h2 := h _ hmem
    simp at h2
    rw [List.get_eq_getElem] at hrep
    rcases h2 with h2 | h2
    · exact absurd hrep h2
    · exact h2
  · intro h p hp
    rw [List.mem_enum_iff_getElem?] at hp
    by_cases hrep : p.2.repoId = b.repoId
    · have hk : p.1 < plan.length := by
        by_contra hc
        rw [List.getElem?_eq_none (Nat.le_of_not_lt hc)] at hp
        cases hp
      have hval : plan.get ⟨p.1, hk⟩ = p.2 := by
        rw [List.get_eq_getElem]
        rw [List.getElem?_eq_getElem hk] at hp
        injection hp
      have hle := h p.1 hk (by rw [hval, hrep])
      simp [hle, hrep]
    · simp [hrep]

lemma lastFor_drop_iff (plan : List JobSpec) (i : Nat) (b : JobSpec)
    (rest : List JobSpec) (hdrop : plan.drop i = b :: rest) :
    (lastFor plan i b = true ↔ ∀ j ∈ rest, j.repoId ≠ b.repoId) := by
  have hrest : plan.drop (i + 1) = rest := by
    rw [← List.tail_drop, hdrop]
    rfl
  subst hrest
  rw [lastFor_eq_true_iff]
  constructor
  · intro h j hj hrep
    obtain ⟨⟨n, hn⟩, hget⟩ := List.mem_iff_get.mp hj
    have hlen : n < plan.length - (i + 1) := by
      simpa [List.length_drop] using hn
    have hk : i + 1 + n < plan.length := by omega
    have h2 : plan.get ⟨i + 1 + n, hk⟩ = j := by
      rw [List.get_eq_getElem, ← List.getElem_drop]
      rw [List.get_eq_getElem] at hget
      exact hget
    have := h (i + 1 + n) hk (by rw [h2, hrep])
    omega
  · intro h k hk hrep
    by_contra hgt
    push_neg at hgt
    have hk2 : k - (i + 1) < (plan.drop (i + 1)).length := by
      rw [List.length_drop]; omega
    have hmem : plan.get ⟨k, hk⟩ ∈ plan.drop (i + 1) := by
      refine List.mem_iff_get.mpr ⟨⟨k - (i + 1), hk2⟩, ?_⟩
      rw [List.get_eq_getElem, List.get_eq_getElem, List.getElem_drop]
      have heq : i + 1 + (k - (i + 1)) = k := by omega
      simp only [heq]
    exact h _ hmem hrep

lemma count_post_stepEv (plan : List JobSpec) (i : Nat) (b : JobSpec)
    (r : Nat) :
    (stepEv plan i b).count (Event.post r) =
      if b.repoId = r ∧ lastFor plan i b = true then 1 else 0 := by
  unfold stepEv
  cases hcpe : (b.outcome == JobOutcome.raiseCPE) <;>
    cases hl : lastFor plan i b <;>
    by_cases hbr : b.repoId = r <;>
    simp [List.count_cons, List.count_append, hbr]

lemma run_mem_stepEv (plan : List JobSpec) (i : Nat) (b : JobSpec) :
    Event.run b.repoId b.jobId ∈ stepEv plan i b := by
  unfold stepEv
  exact List.mem_cons_self _ _

lemma jobPhase_post_spec (plan : List JobSpec) (r : Nat) :
    ∀ rem : List JobSpec, ∀ i : Nat, plan.drop i = rem →
      (∀ j ∈ rem, j.outcome ≠ .raiseOther) →
      ((∃ j ∈ rem, j.repoId = r) →
          (jobPhase plan i rem).1.count (.post r) = 1 ∧
          ∃ u v, (jobPhase plan i rem).1 = u ++ .post r :: v ∧
            ∀ j ∈ rem, j.repoId = r → Event.run j.repoId j.jobId ∈ u) ∧
      ((∀ j ∈ rem, j.repoId ≠ r) →
          (jobPhase plan i rem).1.count (.post r) = 0) := by
  intro rem
  induction rem with
  | nil =>
    intro i _ _
    exact ⟨fun ⟨j, hj, _⟩ => absurd hj (List.not_mem_nil j), fun _ => rfl⟩
  | cons b rest ih =>
    intro i hdrop hno
    have hdrop' : plan.drop (i + 1) = rest := by
      rw [← List.tail_drop, hdrop]
      rfl
    have hb : (b.outcome == JobOutcome.raiseOther) = false := by
      simpa using hno b (List.mem_cons_self _ _)
    have ihr := ih (i + 1) hdrop' fun j hj => hno j (List.mem_cons_of_mem _ hj)
    have hev : (jobPhase plan i (b :: rest)).1 =
        stepEv plan i b ++ (jobPhase plan (i + 1) rest).1 := by
      rw [jobPhase]
      simp only [hb, Bool.false_eq_true, if_false]
    have hlastIff := lastFor_drop_iff plan i b rest hdrop
    constructor
    · rintro ⟨j0, hj0, hj0r⟩
      by_cases hbr : b.repoId = r
      · by_cases hlast : ∀ j ∈ rest, j.repoId ≠ b.repoId
        · have hl : lastFor plan i b = true := hlastIff.mpr hlast
          have hcnt0 : (jobPhase plan (i + 1) rest).1.count (.post r) = 0 :=
            ihr.2 fun j hj => hbr ▸ hlast j hj
          constructor
          · rw [hev, List.count_append, hcnt0, count_post_stepEv,
              if_pos ⟨hbr, hl⟩]
          · refine ⟨Event.run b.repoId b.jobId ::
                (if (b.outcome == JobOutcome.raiseCPE) = true
                  then [Event.fatal b.repoId] else []),
              (jobPhase plan (i + 1) rest).1, ?_, ?_⟩
            · rw [hev]
              unfold stepEv
              rw [hl, hbr]
              simp
            · intro j hj hjr
              rcases List.mem_cons.mp hj with rfl | hj
              · exact List.mem_cons_self _ _
              · exact absurd hjr (hbr ▸ hlast j hj)
        · push_neg at hlast
          obtain ⟨j1, hj1, hj1r⟩ := hlast
          have hl : lastFor plan i b = false := by
            cases hlf : lastFor plan i b
            · rfl
            · exact absurd hj1r (hlastIff.mp hlf j1 hj1)
          have hstep0 : (stepEv plan i b).count (.post r) = 0 := by
            rw [count_post_stepEv, if_neg]
            rintro ⟨_, hc⟩
            rw [hl] at hc
            cases hc
          have hex : ∃ j ∈ rest, j.repoId = r := ⟨j1, hj1, by rw [hj1r, hbr]⟩
          obtain ⟨hcnt, u', v', hevr, hu'⟩ := ihr.1 hex
          constructor
          · rw [hev, List.count_append, hstep0, hcnt]
          · refine ⟨stepEv plan i b ++ u', v', ?_, ?_⟩
            · rw [hev, hevr, List.append_assoc]
            · intro j hj hjr
              rcases List.mem_cons.mp hj with rfl | hj
              · exact List.mem_append_left _ (run_mem_stepEv plan i j)
              · exact List.mem_append_right _ (hu' j hj hjr)
      · have hj0rest : j0 ∈ rest := by
          rcases List.mem_cons.mp hj0 with rfl | h
          · exact absurd hj0r hbr
          · exact h
        have hstep0 : (stepEv plan i b).count (.post r) = 0 := by
          rw [count_post_stepEv, if_neg]
          rintro ⟨hc, _⟩
          exact hbr hc
        obtain ⟨hcnt, u', v', hevr, hu'⟩ := ihr.1 ⟨j0, hj0rest, hj0r⟩
        constructor
        · rw [hev, List.count_append, hstep0, hcnt]
        · refine ⟨stepEv plan i b ++ u', v', ?_, ?_⟩
          · rw [hev, hevr, List.append_assoc]
          · intro j hj hjr
            rcases List.mem_cons.mp hj with rfl | hj
            · exact absurd hjr hbr
            · exact List.mem_append_right _ (hu' j hj hjr)
    · intro hall
      have hstep0 : (stepEv plan i b).count (.post r) = 0 := by
        rw [count_post_stepEv, if_neg]
        rintro ⟨hc, _⟩
        exact hall b (List.mem_cons_self _ _) hc
      rw [hev, List.count_append, hstep0,
        ihr.2 fun j hj => hall j (List.mem_cons_of_mem _ hj)]

/-- C8.  During one execution of the per-job loop over a combined plan
that runs to completion (no job raises an exception the loop does not
catch — jobs may succeed or fail with a caught `CalledProcessError`), each
repository with at least one planned job has its notification `post`
invoked exactly once, and that single invocation comes after every one of
the repository's planned jobs has executed, even when jobs of different
repositories are interleaved in the flat job list. -/
theorem claim_c8 (plan : List JobSpec)
    (hno : ∀ j ∈ plan, j.outcome ≠ .raiseOther) (r : Nat)
    (hr : ∃ j ∈ plan, j.repoId = r) :
    (jobPhase plan 0 plan).1.count (.post r) = 1 ∧
    ∃ u v, (jobPhase plan 0 plan).1 = u ++ .post r :: v ∧
      ∀ j ∈ plan, j.repoId = r → Event.run j.repoId j.jobId ∈ u :=
  (jobPhase_post_spec plan r plan 0 (List.drop_zero plan) hno).1 hr

/-- Concrete interleaved plan for the C8 witness: jobs of repositories 1
and 2 alternate, and one job fails with a caught error. -/
def planC8 : List JobSpec :=
  [⟨1, 10, .ok⟩, ⟨2, 20, .ok⟩, ⟨1, 11, .raiseCPE⟩, ⟨2, 21, .ok⟩]

/-- Witness for C8: repository 1's post fires exactly once, after both of
its jobs, in the interleaved plan. -/
theorem claim_c8_witness :
    (jobPhase planC8 0 planC8).1.count (.post 1) = 1 ∧
    ∃ u v, (jobPhase planC8 0 planC8).1 = u ++ .post 1 :: v ∧
      ∀ j ∈ planC8, j.repoId = 1 → Event.run j.repoId j.jobId ∈ u :=
  claim_c8 planC8 (by decide) 1 (by decide)

/-! ## Filename escaping (`Branch.escape_filename` / `Branch.parse_filename`)

Python strings are modelled as their character lists, and `str.replace` as
`replaceList`. -/

/-- Python `str.replace(pat, rep)` on character lists: scan left to right,
replacing each leftmost, non-overlapping occurrence of `pat` by `rep`.
The modelled calls only ever pass a non-empty `pat`; an empty `pat` is
treated as matching nowhere, keeping the function total. -/
def replaceList (pat rep : List Char) : List Char → List Char
  | [] => []
  | c :: rest =>
    if pat ≠ [] ∧ pat.isPrefixOf (c :: rest) then
      rep ++ replaceList pat rep (rest.drop (pat.length - 1))
    else
      c :: replaceList pat rep rest
termination_by l => l.length
decreasing_by
  · simp only [List.length_cons]
    have := List.length_drop (pat.length - 1) rest
    omega
  · simp

/-- `Branch.escape_filename`:
`filename.replace("%", "_25").replace("/", "_2f")`. -/
def escape_filename (filename : List Char) : List Char :=
  replaceList ['/'] ['_', '2', 'f'] (replaceList ['%'] ['_', '2', '5'] filename)

/-- `Branch.parse_filename`:
`filename.replace("_2f", "/").replace("_25", "%")`. -/
def parse_filename (filename : List Char) : List Char :=
  replaceList ['_', '2', '5'] ['%'] (replaceList ['_', '2', 'f'] ['/'] filename)

/-- Occurrence test: `pat` appears as a contiguous substring of the list
(`pat in s` in Python terms). -/
def hasSub (pat : List Char) : List Char → Bool
  | [] => pat.isEmpty
  | c :: rest => pat.isPrefixOf (c :: rest) || hasSub pat rest

lemma replaceList_nil (pat rep : List Char) : replaceList pat rep [] = [] := by
  rw [replaceList]

lemma replaceList_cons_pos (pat rep : List Char) (c : Char) (cs : List Char)
    (hne : pat ≠ []) (h : pat.isPrefixOf (c :: cs)) :
    replaceList pat rep (c :: cs) =
      rep ++ replaceList pat rep (cs.drop (pat.length - 1)) := by
  rw [replaceList, if_pos ⟨hne, h⟩]

lemma replaceList_cons_neg (pat rep : List Char) (c : Char) (cs : List Char)
    (h : ¬pat.isPrefixOf (c :: cs)) :
    replaceList pat rep (c :: cs) = c :: replaceList pat rep cs := by
  rw [replaceList, if_neg fun hc => h hc.2]

lemma replaceList_singleton (p : Char) (rep : List Char) (l : List Char) :
    replaceList [p] rep l =
      l.flatMap fun c => if c = p then rep else [c] := by
  induction l with
  | nil => rw [replaceList_nil, List.flatMap_nil]
  | cons c cs ih =>
    by_cases hc : c = p
    · subst hc
      rw [replaceList_cons_pos _ _ _ _ (by simp) (by simp [List.isPrefixOf])]
      simp [ih]
    · rw [replaceList_cons_neg]
      · simp [List.flatMap_cons, hc, ih]
      · simp only [List.isPrefixOf, List.isPrefixOf_nil_left, Bool.and_true]
        intro h
        rw [beq_iff_eq] at h
        exact hc h.symm

/-- Per-character effect of the two escape replacements together. -/
def escChar (c : Char) : List Char :=
  if c = '%' then ['_', '2', '5'] else if c = '/' then ['_', '2', 'f'] else [c]

/-- Per-character state after undoing only the `_2f` → `/` replacement:
slashes restored, percents still escaped. -/
def escCharHalf (c : Char) : List Char :=
  if c = '%' then ['_', '2', '5'] else [c]

lemma escape_eq_flatMap (l : List Char) :
    escape_filename l = l.flatMap escChar := by
  unfold escape_filename
  rw [replaceList_singleton, replaceList_singleton, List.flatMap_assoc]
  congr 1
  funext c
  by_cases hc : c = '%'
  · subst hc
    simp [escChar]
  · by_cases hs : c = '/'
    · subst hs
      simp [escChar]
    · simp [escChar, hc, hs]

lemma no_slash_percent_escape (l : List Char) :
    '/' ∉ escape_filename l ∧ '%' ∉ escape_filename l := by
  rw [escape_eq_flatMap]
  constructor <;>
    · intro hm
      obtain ⟨c, _, hmem⟩ := List.mem_flatMap.mp hm
      unfold escChar at hmem
      split at hmem
      · simp at hmem
      · split at hmem
        · simp at hmem
        · rename_i h1 h2
          rcases List.mem_singleton.mp hmem with rfl
          first
            | exact h2 rfl
            | exact h1 rfl

lemma head_flatMap_escChar (t : List Char) (d : Char) (rest : List Char)
    (hd : d ≠ '_') (h : t.flatMap escChar = d :: rest) :
    ∃ t', t = d :: t' ∧ rest = t'.flatMap escChar ∧ d ≠ '%' ∧ d ≠ '/' := by
  cases t with
  | nil => simp at h
  | cons e t' =>
    rw [List.flatMap_cons] at h
    by_cases he : e = '%'
    · subst he
      simp only [escChar, if_pos rfl] at h
      injection h with h1 _
      exact absurd h1.symm hd
    · by_cases hs : e = '/'
      · subst hs
        simp only [escChar, reduceIte] at h
        injection h with h1 _
        exact absurd h1.symm hd
      · have heq : escChar e = [e] := by
          unfold escChar
          rw [if_neg he, if_neg hs]
        rw [heq, List.singleton_append] at h
        injection h with h1 h2
        subst h1
        exact ⟨t', rfl, h2.symm, he, hs⟩

lemma head_flatMap_escCharHalf (t : List Char) (d : Char) (rest : List Char)
    (hd : d ≠ '_') (h : t.flatMap escCharHalf = d :: rest) :
    ∃ t', t = d :: t' ∧ rest = t'.flatMap escCharHalf ∧ d ≠ '%' := by
  cases t with
  | nil => simp at h
  | cons e t' =>
    rw [List.flatMap_cons] at h
    by_cases he : e = '%'
    · subst he
      simp only [escCharHalf, if_pos rfl] at h
      injection h with h1 _
      exact absurd h1.symm hd
    · have heq : escCharHalf e = [e] := by
        unfold escCharHalf
        rw [if_neg he]
      rw [heq, List.singleton_append] at h
      injection h with h1 h2
      subst h1
      exact ⟨t', rfl, h2.symm, he⟩

lemma r2f_escape (l : List Char) (h : hasSub ['_', '2', 'f'] l = false) :
    replaceList ['_', '2', 'f'] ['/'] (l.flatMap escChar) =
      l.flatMap escCharHalf := by
  induction l with
  | nil => rw [List.flatMap_nil, List.flatMap_nil, replaceList_nil]
  | cons c t ih =>
    rw [hasSub, Bool.or_eq_false_iff] at h
    obtain ⟨hnp, ht⟩ := h
    rw [List.flatMap_cons, List.flatMap_cons]
    by_cases hc : c = '%'
    · subst hc
      show replaceList _ _ ('_' :: '2' :: '5' :: t.flatMap escChar) = _
      rw [replaceList_cons_neg _ _ _ _ (by simp [List.isPrefixOf]),
        replaceList_cons_neg _ _ _ _ (by simp [List.isPrefixOf]),
        replaceList_cons_neg _ _ _ _ (by simp [List.isPrefixOf]),
        ih ht]
      simp [escCharHalf]
    · by_cases hs : c = '/'
      · subst hs
        show replaceList _ _ ('_' :: '2' :: 'f' :: t.flatMap escChar) = _
        rw [replaceList_cons_pos _ _ _ _ (by simp) (by simp [List.isPrefixOf])]
        simp only [List.length_cons, List.drop_succ_cons, List.drop_zero,
          List.length_nil]
        rw [ih ht]
        simp [escCharHalf]
      · have he : escChar c = [c] := by
          unfold escChar
          rw [if_neg hc, if_neg hs]
        have hh : escCharHalf c = [c] := by
          unfold escCharHalf
          rw [if_neg hc]
        rw [he, hh, List.singleton_append, List.singleton_append]
        rw [replaceList_cons_neg, ih ht]
        intro hpre
        rw [List.isPrefixOf_iff_prefix] at hpre
        obtain ⟨s, hs2⟩ := hpre
        rw [List.cons_append, List.cons_append, List.cons_append,
          List.nil_append] at hs2
        injection hs2 with h1 h2
        subst h1
        obtain ⟨t1, rfl, hrest, _, _⟩ :=
          head_flatMap_escChar t '2' ('f' :: s) (by decide) h2.symm
        obtain ⟨t2, rfl, _, _, _⟩ :=
          head_flatMap_escChar t1 'f' s (by decide) hrest.symm
        have hpre2 :
            List.isPrefixOf ['_', '2', 'f'] ('_' :: '2' :: 'f' :: t2) = true := by
          simp [List.isPrefixOf]
        rw [hnp] at hpre2
        cases hpre2

lemma r25_escapeHalf (l : List Char) (h : hasSub ['_', '2', '5'] l = false) :
    replaceList ['_', '2', '5'] ['%'] (l.flatMap escCharHalf) = l := by
  induction l with
  | nil => rw [List.flatMap_nil, replaceList_nil]
  | cons c t ih =>
    rw [hasSub, Bool.or_eq_false_iff] at h
    obtain ⟨hnp, ht⟩ := h
    rw [List.flatMap_cons]
    by_cases hc : c = '%'
    · subst hc
      show replaceList _ _ ('_' :: '2' :: '5' :: t.flatMap escCharHalf) = _
      rw [replaceList_cons_pos _ _ _ _ (by simp) (by simp [List.isPrefixOf])]
      simp only [List.length_cons, List.drop_succ_cons, List.drop_zero,
        List.length_nil]
      rw [ih ht]
      rfl
    · have hh : escCharHalf c = [c] := by
        unfold escCharHalf
        rw [if_neg hc]
      rw [hh, List.singleton_append]
      rw [replaceList_cons_neg, ih ht]
      intro hpre
      rw [List.isPrefixOf_iff_prefix] at hpre
      obtain ⟨s, hs2⟩ := hpre
      rw [List.cons_append, List.cons_append, List.cons_append,
        List.nil_append] at hs2
      injection hs2 with h1 h2
      subst h1
      obtain ⟨t1, rfl, hrest, _⟩ :=
        head_flatMap_escCharHalf t '2' ('5' :: s) (by decide) h2.symm
      obtain ⟨t2, rfl, _, _⟩ :=
        head_flatMap_escCharHalf t1 '5' s (by decide) hrest.symm
      have hpre2 :
          List.isPrefixOf ['_', '2', '5'] ('_' :: '2' :: '5' :: t2) = true := by
        simp [List.isPrefixOf]
      rw [hnp] at hpre2
      cases hpre2

/-- C10.  For every branch name containing neither the substring `_25` nor
the substring `_2f`, `parse_filename (escape_filename name) = name`, and
the escaped form contains no `/` and no `%` character, so it is a single
filesystem path component. -/
theorem claim_c10 (l : List Char)
    (h25 : hasSub ['_', '2', '5'] l = false)
    (h2f : hasSub ['_', '2', 'f'] l = false) :
    parse_filename (escape_filename l) = l ∧
    '/' ∉ escape_filename l ∧ '%' ∉ escape_filename l := by
  refine ⟨?_, no_slash_percent_escape l⟩
  unfold parse_filename
  rw [escape_eq_flatMap, r2f_escape l h2f, r25_escapeHalf l h25]

/-- Witness for C10: the branch name `feat/x%y` round-trips and its
escaped form has no slash or percent. -/
theorem claim_c10_witness :
    parse_filename (escape_filename ['f', 'e', 'a', 't', '/', 'x', '%', 'y']) =
      ['f', 'e', 'a', 't', '/', 'x', '%', 'y'] ∧
    '/' ∉ escape_filename ['f', 'e', 'a', 't', '/', 'x', '%', 'y'] ∧
    '%' ∉ escape_filename ['f', 'e', 'a', 't', '/', 'x', '%', 'y'] :=
  claim_c10 ['f', 'e', 'a', 't', '/', 'x', '%', 'y'] (by decide) (by decide)

end Nightlies
